import Mathlib

attribute [local semireducible] Rat.add Rat.sub Rat.mul Rat.inv

set_option linter.unusedVariables false

namespace Kaczmarz

/-!
Shallow embedding of `src/kaczmarz/_variants.py`, the row-selection
strategies of the kaczmarz-algorithms repository.  Vectors are `List ℚ`,
matrices are `List (List ℚ)`; exact rational arithmetic replaces numpy
floating point.  The base solver class (`kaczmarz.Base`) is not part of
the source tree; the pieces of it the strategies use (`_update_iterate`,
`_row_norms`, `_n_rows`, `_xk`) are modelled from the spec where needed.
-/

/-- Dot product of two rational vectors (numpy `u @ v`). -/
def dot (u v : List ℚ) : ℚ :=
  (List.zipWith (· * ·) u v).sum

/-- Matrix-vector product `A @ x` (numpy semantics, row by row). -/
def matVec (A : List (List ℚ)) (x : List ℚ) : List ℚ :=
  A.map (fun row => dot row x)

/-- The residual vector `b - A @ x` computed by the strategies. -/
def residualVec (A : List (List ℚ)) (b x : List ℚ) : List ℚ :=
  List.zipWith (· - ·) b (matVec A x)

/-- Squared Euclidean norm of a vector: `dot v v`.  Comparisons of
`np.linalg.norm` values are mirrored by comparisons of squared norms,
since the square root is strictly monotone on nonnegative arguments. -/
def sqNorm (v : List ℚ) : ℚ :=
  dot v v

/-- `np.argmax` on a rational list: index of the first occurrence of the
maximum entry (`0` on the empty list, where numpy would raise). -/
def npArgmax : List ℚ → ℕ
  | [] => 0
  | x :: xs => if xs.all (fun y => decide (y ≤ x)) then 0 else npArgmax xs + 1

/-! ### Cyclic -/

/-- State of the `Cyclic` strategy: the field `self._row_index`. -/
structure CyclicState where
  rowIndex : ℤ

/-- `Cyclic.__init__`: `self._row_index = -1`. -/
def cyclicInit : CyclicState := ⟨-1⟩

/-- `Cyclic._select_row_index`: sets
`self._row_index = (1 + self._row_index) % self._n_rows` and returns it.
Python `%` with a positive modulus agrees with `Int.emod`. -/
def cyclicSelect (m : ℕ) (s : CyclicState) : ℤ × CyclicState :=
  let r := (1 + s.rowIndex) % (m : ℤ)
  (r, ⟨r⟩)

/-- The strategy state after `k` calls to `_select_row_index`, starting
from a freshly constructed `Cyclic`. -/
def cyclicStateAfter (m : ℕ) : ℕ → CyclicState
  | 0 => cyclicInit
  | k + 1 => (cyclicSelect m (cyclicStateAfter m k)).2

/-- The index returned by call number `k` (0-indexed). -/
def cyclicCall (m k : ℕ) : ℤ :=
  (cyclicSelect m (cyclicStateAfter m k)).1

/-! ### MaxDistance -/

/-- Solver-owned state read by the strategies: the stored iterate
`self._xk` of `kaczmarz.Base`. -/
structure BaseState where
  xk : List ℚ

/-- `MaxDistance._select_row_index(self, xk)`:
`residual = self._b - self._A @ self._xk; return np.argmax(np.abs(residual))`.
The body reads the stored iterate `self._xk`, not the `xk` argument. -/
def maxDistanceSelect (A : List (List ℚ)) (b : List ℚ)
    (xk : List ℚ) (s : BaseState) : ℕ :=
  npArgmax ((residualVec A b s.xk).map (fun r => |r|))

/-! ### Lookahead -/

/-- Modelled from the spec: `kaczmarz.Base._update_iterate(xk, ik)` is not
in the source tree; the spec fixes it as the orthogonal projection of `xk`
onto the hyperplane `A[ik] @ x = b[ik]`, i.e.
`xk + ((b[ik] - A[ik] @ xk) / ‖A[ik]‖²) * A[ik]`. -/
def updateIterate (A : List (List ℚ)) (b xk : List ℚ) (ik : ℕ) : List ℚ :=
  let ai := A.getD ik []
  let c := (b.getD ik 0 - dot ai xk) / sqNorm ai
  List.zipWith (fun xj aj => xj + c * aj) xk ai

/-- The greedy continuation `ik2 = np.argmax(np.abs(residual))` computed by
`Lookahead._select_row_index` for candidate `ik`, where `residual` is taken
at `next_xk = self._update_iterate(self._xk, ik)`. -/
def lookI2 (A : List (List ℚ)) (b xk : List ℚ) (ik : ℕ) : ℕ :=
  npArgmax ((residualVec A b (updateIterate A b xk ik)).map (fun r => |r|))

/-- The score `residual_norms` of candidate `ik`:
`(norm(b - A @ next_next_xk), norm(b - A @ next_xk))` with both Euclidean
norms replaced by squared norms, which preserves the lexicographic
comparison because squaring is strictly monotone on nonnegatives. -/
def lookKey (A : List (List ℚ)) (b xk : List ℚ) (ik : ℕ) : ℚ × ℚ :=
  let nxk := updateIterate A b xk ik
  let res := residualVec A b nxk
  let nnxk := updateIterate A b nxk (lookI2 A b xk ik)
  (sqNorm (residualVec A b nnxk), sqNorm res)

/-- Python tuple `<` on score pairs; `none` stands for the initial
`(float("inf"), float("inf"))`, which every finite score beats. -/
def keyLt (k : ℚ × ℚ) : Option (ℚ × ℚ) → Bool
  | none => true
  | some k0 => decide (k.1 < k0.1) || (decide (k.1 = k0.1) && decide (k.2 < k0.2))

/-- Accumulator of the search loop: `best_i`, `self._next_i` and
`best_residual_norms`. -/
structure LookAcc where
  bestI : ℤ
  nextI : ℤ
  best : Option (ℚ × ℚ)

/-- One iteration of the `for ik in range(self._n_rows)` loop of
`Lookahead._select_row_index`. -/
def lookStep (A : List (List ℚ)) (b xk : List ℚ) (acc : LookAcc) (ik : ℕ) :
    LookAcc :=
  if keyLt (lookKey A b xk ik) acc.best then
    ⟨(ik : ℤ), (lookI2 A b xk ik : ℤ), some (lookKey A b xk ik)⟩
  else acc

/-- The whole search loop, from `best_i = -1`, `self._next_i = -1`,
`best_residual_norms = (inf, inf)`. -/
def lookSearch (A : List (List ℚ)) (b xk : List ℚ) (m : ℕ) : LookAcc :=
  (List.range m).foldl (lookStep A b xk) ⟨-1, -1, none⟩

/-- State of the `Lookahead` strategy: the one-slot cache `self._next_i`
and the stored iterate `self._xk`. -/
structure LookaheadState where
  nextI : Option ℤ
  xk : List ℚ

/-- `Lookahead._select_row_index(self, xk)`: when the cache holds a value,
consume and return it; otherwise run the two-step search over the stored
iterate `self._xk`, cache the winning `ik2` and return the winning `ik`.
The body never reads the `xk` argument. -/
def lookaheadSelect (A : List (List ℚ)) (b : List ℚ) (m : ℕ)
    (xk : List ℚ) (s : LookaheadState) : ℤ × LookaheadState :=
  match s.nextI with
  | some t => (t, ⟨none, s.xk⟩)
  | none =>
    let acc := lookSearch A b s.xk m
    (acc.bestI, ⟨some acc.nextI, s.xk⟩)

/-- The winning candidate recorded by the search accumulator over the
candidates `seen`: its score is lexicographically minimal. -/
def LookBest (A : List (List ℚ)) (b xk : List ℚ) (acc : LookAcc)
    (seen : List ℕ) : Prop :=
  ∃ i : ℕ, i ∈ seen ∧ acc.bestI = (i : ℤ) ∧
    acc.nextI = (lookI2 A b xk i : ℤ) ∧
    acc.best = some (lookKey A b xk i) ∧
    ∀ j ∈ seen, keyLt (lookKey A b xk j) (some (lookKey A b xk i)) = false

/-- Loop invariant of the search. -/
def LookInv (A : List (List ℚ)) (b xk : List ℚ) (acc : LookAcc)
    (seen : List ℕ) : Prop :=
  (acc = ⟨-1, -1, none⟩ ∧ seen = []) ∨ LookBest A b xk acc seen

/-! ### Quantile -/

/-- `np.quantile(a, q)` with the default linear interpolation: for the
sorted values `s` of `a` and the fractional position `h = q * (n - 1)`,
interpolates between `s[floor h]` and `s[ceil h]`. -/
def npQuantile (l : List ℚ) (q : ℚ) : ℚ :=
  let s := l.insertionSort (· ≤ ·)
  let h := q * ((l.length : ℚ) - 1)
  let lo := ⌊h⌋.toNat
  let hi := ⌈h⌉.toNat
  s.getD lo 0 + (h - (lo : ℚ)) * (s.getD hi 0 - s.getD lo 0)

/-- `np.isclose(a, b)` with the default tolerances `rtol = 1e-05`,
`atol = 1e-08`: `|a - b| <= atol + rtol * |b|`. -/
def npIsclose (a b : ℚ) : Bool :=
  decide (|a - b| ≤ 1 / 100000000 + (1 / 100000) * |b|)

/-- `Quantile._distance(xk, ik) = np.abs(self._b[ik] - self._A[ik] @ xk)`. -/
def quantileDistance (A : List (List ℚ)) (b xk : List ℚ) (ik : ℕ) : ℚ :=
  |b.getD ik 0 - dot (A.getD ik []) xk|

/-- `Quantile._threshold_distances(xk) = np.abs(self._b - self._A @ xk)`. -/
def quantileThresholdDistances (A : List (List ℚ)) (b xk : List ℚ) : List ℚ :=
  (residualVec A b xk).map (fun r => |r|)

/-- `Quantile._threshold(xk) = np.quantile(self._threshold_distances(xk),
self._quantile)`. -/
def quantileThreshold (A : List (List ℚ)) (b xk : List ℚ) (q : ℚ) : ℚ :=
  npQuantile (quantileThresholdDistances A b xk) q

/-- `Quantile._select_row_index(xk)` with the random proposal `ik` of the
wrapped `Random` policy made explicit: accept `ik` when
`distance < threshold or np.isclose(distance, threshold)`, else return the
skip sentinel `-1` (`# No projection please`). -/
def quantileSelect (A : List (List ℚ)) (b xk : List ℚ) (q : ℚ) (ik : ℕ) : ℤ :=
  let distance := quantileDistance A b xk ik
  let threshold := quantileThreshold A b xk q
  if distance < threshold ∨ npIsclose distance threshold = true then (ik : ℤ)
  else -1

/-! ### WindowedQuantile -/

/-- `collections.deque` with `maxlen = w`: appending keeps only the most
recent `w` elements, evicting the oldest when full. -/
def dequeAppend (w : ℕ) (l : List ℚ) (x : ℚ) : List ℚ :=
  (l ++ [x]).drop (l.length + 1 - w)

/-- State of `WindowedQuantile`: the deque `self._window`, created empty
with `maxlen = window_size`. -/
structure WindowedState where
  window : List ℚ

/-- `WindowedQuantile._select_row_index` (inherited from `Quantile`) with
the random proposal `ik` explicit: the overridden `_distance` computes the
scalar distance and appends it to the window; the overridden
`_threshold_distances` returns the window, so `_threshold` is
`np.quantile` of the window; then `Quantile`'s accept test runs. -/
def windowedSelect (w : ℕ) (A : List (List ℚ)) (b : List ℚ) (q : ℚ)
    (xk : List ℚ) (ik : ℕ) (s : WindowedState) : ℤ × WindowedState :=
  let d := quantileDistance A b xk ik
  let win := dequeAppend w s.window d
  let t := npQuantile win q
  (if d < t ∨ npIsclose d t = true then (ik : ℤ) else -1, ⟨win⟩)

/-- The strategy state after a sequence of calls, each given by its `xk`
argument and its random proposal, starting from the empty window. -/
def windowedRun (w : ℕ) (A : List (List ℚ)) (b : List ℚ) (q : ℚ)
    (calls : List (List ℚ × ℕ)) : WindowedState :=
  calls.foldl (fun s c => (windowedSelect w A b q c.1 c.2 s).2) ⟨[]⟩

/-- The scalar distances computed by step 2 across a sequence of calls. -/
def computedDistances (A : List (List ℚ)) (b : List ℚ)
    (calls : List (List ℚ × ℕ)) : List ℚ :=
  calls.map (fun c => quantileDistance A b c.1 c.2)

/-! ### SVRandom -/

/-- Modelled from the spec: `kaczmarz.Base` precomputes `self._row_norms`,
the Euclidean norm of each row of `A`.  `SVRandom` only uses their squares
`self._row_norms ** 2`, which are exactly the rational `sqNorm` of each
row. -/
def squaredRowNorms (A : List (List ℚ)) : List ℚ := A.map sqNorm

/-- `SVRandom.__init__`:
`self._p = squared_row_norms / squared_row_norms.sum()` (numpy vectorized
division, with no guard for a zero sum). -/
def svrandomP (A : List (List ℚ)) : List ℚ :=
  (squaredRowNorms A).map (fun s => s / (squaredRowNorms A).sum)

/-! ### RandomOrthoGraph -/

/-- `self._ortho_graph = self._A @ self._A.T`. -/
def orthoGraph (A : List (List ℚ)) : List (List ℚ) :=
  A.map (fun r => A.map (fun t => dot r t))

/-- `RandomOrthoGraph._newly_selectable(i) =
np.argwhere(self._ortho_graph[i, :])`: the indices of the nonzero entries
of row `i` of the orthogonality graph, i.e. the neighbors of `i`. -/
def newlySelectable (G : List (List ℚ)) (i : ℕ) : List ℕ :=
  (List.range (G.getD i []).length).filter
    (fun j => decide ((G.getD i []).getD j 0 ≠ 0))

/-- `np.union1d(a, c)`: the sorted union of the unique values. -/
def union1d (a c : List ℕ) : List ℕ :=
  ((a ++ c).dedup).insertionSort (· ≤ ·)

/-- `np.setdiff1d(a, r, assume_unique=True)`: the values of `a` not in
`r`. -/
def setdiff1d (a r : List ℕ) : List ℕ :=
  a.filter (fun x => decide (x ∉ r))

/-- `RandomOrthoGraph._update_selectable(ik)`: every neighbor of `ik`
becomes selectable and `ik` itself becomes unselectable. -/
def updateSelectable (G : List (List ℚ)) (sel : List ℕ) (ik : ℕ) : List ℕ :=
  setdiff1d (union1d sel (newlySelectable G ik)) [ik]

/-! ### Properties -/

/-- `npArgmax` returns a valid index on a nonempty list. -/
theorem npArgmax_lt_length (l : List ℚ) (h : l ≠ []) : npArgmax l < l.length := by
  induction l with
  | nil => simp at h
  | cons x xs ih =>
    by_cases hxs : xs = []
    · subst hxs; simp [npArgmax]
    · simp only [npArgmax, List.length_cons]
      split
      · exact Nat.succ_pos _
      · exact Nat.succ_lt_succ (ih hxs)

/-- Every entry of `l` is at most the entry at `npArgmax l`. -/
theorem getD_le_getD_npArgmax (l : List ℚ) (j : ℕ) (hj : j < l.length) :
    l.getD j 0 ≤ l.getD (npArgmax l) 0 := by
  induction l generalizing j with
  | nil => simp at hj
  | cons x xs ih =>
    simp only [npArgmax]
    split
    · next hall =>
      simp only [List.all_eq_true, decide_eq_true_eq] at hall
      cases j with
      | zero => simp
      | succ j =>
        have hj' : j < xs.length := by simpa using hj
        simp only [List.getD_cons_succ, List.getD_cons_zero]
        rw [List.getD_eq_getElem xs 0 hj']
        exact hall _ (List.getElem_mem hj')
    · next hall =>
      simp only [List.all_eq_true, decide_eq_true_eq, not_forall] at hall
      obtain ⟨y, hy, hxy⟩ := hall
      push_neg at hxy
      have hxs : xs ≠ [] := by rintro rfl; simp at hy
      obtain ⟨i, hi, rfl⟩ := List.mem_iff_getElem.mp hy
      have hmax : xs.getD i 0 ≤ xs.getD (npArgmax xs) 0 := ih i hi
      rw [List.getD_eq_getElem xs 0 hi] at hmax
      cases j with
      | zero =>
        simp only [List.getD_cons_zero, List.getD_cons_succ]
        exact le_trans (le_of_lt hxy) hmax
      | succ j =>
        simp only [List.getD_cons_succ]
        exact ih j (by simpa using hj)

/-- Entries strictly before `npArgmax l` are strictly below the maximum:
`np.argmax` breaks ties by the first occurrence. -/
theorem getD_lt_of_lt_npArgmax (l : List ℚ) (j : ℕ) (hj : j < npArgmax l) :
    l.getD j 0 < l.getD (npArgmax l) 0 := by
  induction l generalizing j with
  | nil => simp [npArgmax] at hj
  | cons x xs ih =>
    cases hc : xs.all (fun y => decide (y ≤ x)) with
    | true => simp [npArgmax, hc] at hj
    | false =>
      simp only [npArgmax, hc, Bool.false_eq_true, if_false] at hj ⊢
      have hall : ∃ y ∈ xs, x < y := by
        have := List.all_eq_false.mp hc
        obtain ⟨y, hy, hxy⟩ := this
        exact ⟨y, hy, by simpa using hxy⟩
      obtain ⟨y, hy, hxy⟩ := hall
      obtain ⟨i, hi, rfl⟩ := List.mem_iff_getElem.mp hy
      have hmax : xs.getD i 0 ≤ xs.getD (npArgmax xs) 0 :=
        getD_le_getD_npArgmax xs i hi
      rw [List.getD_eq_getElem xs 0 hi] at hmax
      cases j with
      | zero =>
        simp only [List.getD_cons_zero, List.getD_cons_succ]
        exact lt_of_lt_of_le hxy hmax
      | succ j =>
        simp only [List.getD_cons_succ]
        exact ih j (by omega)

theorem cyclicCall_eq_emod (m k : ℕ) : cyclicCall m k = (k : ℤ) % m := by
  induction k with
  | zero => rfl
  | succ k ih =>
    have hstep : cyclicCall m (k + 1) = (1 + cyclicCall m k) % m := rfl
    rw [hstep, ih]
    conv_lhs => rw [Int.add_emod]
    rw [Int.emod_emod_of_dvd _ dvd_rfl, ← Int.add_emod]
    push_cast
    ring_nf

/-- Claim C1: for a `Cyclic` strategy over `m` rows, any window of `m`
consecutive calls to `_select_row_index` visits every index of
`{0,...,m-1}` exactly once (injectively and surjectively on the window),
consecutive outputs increase by one modulo `m` (increasing order with
wraparound), the `(k+m)`-th call repeats the `k`-th call's output, and no
call ever returns the skip sentinel `-1`. -/
theorem cyclic_round_robin (m k : ℕ) (hm : 0 < m) :
    (0 ≤ cyclicCall m k ∧ cyclicCall m k < (m : ℤ) ∧ cyclicCall m k ≠ -1) ∧
    cyclicCall m (k + m) = cyclicCall m k ∧
    cyclicCall m (k + 1) = (cyclicCall m k + 1) % (m : ℤ) ∧
    (∀ t1 t2 : ℕ, t1 < m → t2 < m →
      cyclicCall m (k + t1) = cyclicCall m (k + t2) → t1 = t2) ∧
    (∀ i : ℕ, i < m → ∃ t : ℕ, t < m ∧ cyclicCall m (k + t) = (i : ℤ)) := by
  have hm0 : (m : ℤ) ≠ 0 := by exact_mod_cast hm.ne'
  have hmpos : (0 : ℤ) < m := by exact_mod_cast hm
  refine ⟨⟨?_, ?_, ?_⟩, ?_, ?_, ?_, ?_⟩
  · rw [cyclicCall_eq_emod]; exact Int.emod_nonneg _ hm0
  · rw [cyclicCall_eq_emod]; exact Int.emod_lt_of_pos _ hmpos
  · rw [cyclicCall_eq_emod]
    have := Int.emod_nonneg (k : ℤ) hm0
    omega
  · rw [cyclicCall_eq_emod, cyclicCall_eq_emod]
    push_cast
    rw [show (k : ℤ) + m = k + m * 1 by ring, Int.add_mul_emod_self_left]
  · rw [cyclicCall_eq_emod, cyclicCall_eq_emod]
    conv_rhs => rw [Int.add_emod]
    rw [Int.emod_emod_of_dvd _ dvd_rfl, ← Int.add_emod]
    push_cast
    ring_nf
  · intro t1 t2 ht1 ht2 heq
    rw [cyclicCall_eq_emod, cyclicCall_eq_emod] at heq
    have hsub := Int.emod_eq_emod_iff_emod_sub_eq_zero.mp heq
    have hd : (m : ℤ) ∣ ((t1 : ℤ) - t2) := by
      refine Int.dvd_of_emod_eq_zero ?_
      push_cast at hsub
      have h2 : ((k : ℤ) + t1) - ((k : ℤ) + t2) = (t1 : ℤ) - t2 := by ring
      rwa [h2] at hsub
    rcases hd with ⟨c, hc⟩
    have hb1 : -(m : ℤ) < (m : ℤ) * c := by push_cast at hc ⊢; omega
    have hb2 : (m : ℤ) * c < m := by push_cast at hc ⊢; omega
    have hc0 : c = 0 := by nlinarith
    rw [hc0, mul_zero] at hc
    omega
  · intro i hi
    refine ⟨(((i : ℤ) - k) % m).toNat, ?_, ?_⟩
    · have h1 : 0 ≤ ((i : ℤ) - k) % m := Int.emod_nonneg _ hm0
      have h2 : ((i : ℤ) - k) % m < m := Int.emod_lt_of_pos _ hmpos
      omega
    · rw [cyclicCall_eq_emod]
      have h1 : 0 ≤ ((i : ℤ) - k) % m := Int.emod_nonneg _ hm0
      push_cast [Int.toNat_of_nonneg h1]
      rw [Int.add_emod ((k : ℤ)) _, Int.emod_emod_of_dvd _ dvd_rfl,
        ← Int.add_emod]
      have : (k : ℤ) + ((i : ℤ) - k) = i := by ring
      rw [this]
      exact Int.emod_eq_of_lt (by positivity) (by exact_mod_cast hi)

/-- Witness for C1 at `m = 3`, `k = 4`. -/
theorem cyclic_round_robin_witness :
    0 < 3 ∧
    ((0 ≤ cyclicCall 3 4 ∧ cyclicCall 3 4 < ((3 : ℕ) : ℤ) ∧ cyclicCall 3 4 ≠ -1) ∧
    cyclicCall 3 (4 + 3) = cyclicCall 3 4 ∧
    cyclicCall 3 (4 + 1) = (cyclicCall 3 4 + 1) % ((3 : ℕ) : ℤ) ∧
    (∀ t1 t2 : ℕ, t1 < 3 → t2 < 3 →
      cyclicCall 3 (4 + t1) = cyclicCall 3 (4 + t2) → t1 = t2) ∧
    (∀ i : ℕ, i < 3 → ∃ t : ℕ, t < 3 ∧ cyclicCall 3 (4 + t) = (i : ℤ))) :=
  ⟨by norm_num, cyclic_round_robin 3 4 (by norm_num)⟩

theorem map_abs_getD (l : List ℚ) (j : ℕ) (hj : j < l.length) :
    (l.map (fun r => |r|)).getD j 0 = |l.getD j 0| := by
  rw [List.getD_eq_getElem _ _ (by simpa using hj),
    List.getD_eq_getElem _ _ hj, List.getElem_map]

/-- Claim C2: the index returned by `MaxDistance._select_row_index` is a
valid row index whose residual magnitude is greatest, every other row's
residual magnitude being at most it, and every row strictly before the
returned one having strictly smaller magnitude (ties broken by the first
occurrence of the maximum). -/
theorem maxDistance_select_argmax (A : List (List ℚ)) (b xk : List ℚ)
    (s : BaseState) (hne : residualVec A b s.xk ≠ []) :
    maxDistanceSelect A b xk s < (residualVec A b s.xk).length ∧
    (∀ j : ℕ, j < (residualVec A b s.xk).length →
      |(residualVec A b s.xk).getD j 0| ≤
        |(residualVec A b s.xk).getD (maxDistanceSelect A b xk s) 0|) ∧
    (∀ j : ℕ, j < maxDistanceSelect A b xk s →
      |(residualVec A b s.xk).getD j 0| <
        |(residualVec A b s.xk).getD (maxDistanceSelect A b xk s) 0|) := by
  have hmapne : (residualVec A b s.xk).map (fun r => |r|) ≠ [] := by
    simpa using hne
  have hlen : maxDistanceSelect A b xk s < (residualVec A b s.xk).length := by
    have := npArgmax_lt_length _ hmapne
    simpa [maxDistanceSelect] using this
  refine ⟨hlen, ?_, ?_⟩
  · intro j hj
    simp only [maxDistanceSelect] at hlen ⊢
    have h := getD_le_getD_npArgmax ((residualVec A b s.xk).map (fun r => |r|)) j
      (by simpa using hj)
    rwa [map_abs_getD _ _ hj, map_abs_getD _ _ hlen] at h
  · intro j hj
    have hjlen : j < (residualVec A b s.xk).length :=
      lt_trans hj hlen
    simp only [maxDistanceSelect] at hlen ⊢
    have h := getD_lt_of_lt_npArgmax ((residualVec A b s.xk).map (fun r => |r|)) j
      (by simpa [maxDistanceSelect] using hj)
    rwa [map_abs_getD _ _ hjlen, map_abs_getD _ _ hlen] at h

/-- Witness for C2 on the system `A = [[1,0],[0,1]]`, `b = [1,1]`, stored
iterate `[0,0]`, call argument `[5,5]`. -/
theorem maxDistance_select_argmax_witness :
    residualVec [[1, 0], [0, 1]] [1, 1] (BaseState.mk [0, 0]).xk ≠ [] ∧
    (maxDistanceSelect [[1, 0], [0, 1]] [1, 1] [5, 5] (BaseState.mk [0, 0]) <
      (residualVec [[1, 0], [0, 1]] [1, 1] (BaseState.mk [0, 0]).xk).length ∧
    (∀ j : ℕ, j < (residualVec [[1, 0], [0, 1]] [1, 1] (BaseState.mk [0, 0]).xk).length →
      |(residualVec [[1, 0], [0, 1]] [1, 1] (BaseState.mk [0, 0]).xk).getD j 0| ≤
        |(residualVec [[1, 0], [0, 1]] [1, 1] (BaseState.mk [0, 0]).xk).getD
          (maxDistanceSelect [[1, 0], [0, 1]] [1, 1] [5, 5] (BaseState.mk [0, 0])) 0|) ∧
    (∀ j : ℕ, j < maxDistanceSelect [[1, 0], [0, 1]] [1, 1] [5, 5] (BaseState.mk [0, 0]) →
      |(residualVec [[1, 0], [0, 1]] [1, 1] (BaseState.mk [0, 0]).xk).getD j 0| <
        |(residualVec [[1, 0], [0, 1]] [1, 1] (BaseState.mk [0, 0]).xk).getD
          (maxDistanceSelect [[1, 0], [0, 1]] [1, 1] [5, 5] (BaseState.mk [0, 0])) 0|)) :=
  ⟨by decide, maxDistance_select_argmax [[1, 0], [0, 1]] [1, 1] [5, 5]
    (BaseState.mk [0, 0]) (by decide)⟩

theorem keyLt_some_iff (k1 k2 : ℚ × ℚ) :
    keyLt k1 (some k2) = true ↔ k1.1 < k2.1 ∨ (k1.1 = k2.1 ∧ k1.2 < k2.2) := by
  simp [keyLt]

theorem keyLt_irrefl (k : ℚ × ℚ) : keyLt k (some k) = false := by
  simp [keyLt]

theorem keyLt_trans {a b c : ℚ × ℚ} (h1 : keyLt a (some b) = true)
    (h2 : keyLt b (some c) = true) : keyLt a (some c) = true := by
  rw [keyLt_some_iff] at h1 h2 ⊢
  rcases h1 with h1 | ⟨h1e, h1s⟩ <;> rcases h2 with h2 | ⟨h2e, h2s⟩
  · exact Or.inl (lt_trans h1 h2)
  · exact Or.inl (h2e ▸ h1)
  · exact Or.inl (h1e ▸ h2)
  · exact Or.inr ⟨h1e.trans h2e, lt_trans h1s h2s⟩

theorem lookStep_inv (A : List (List ℚ)) (b xk : List ℚ) (acc : LookAcc)
    (seen : List ℕ) (c : ℕ) (h : LookInv A b xk acc seen) :
    LookBest A b xk (lookStep A b xk acc c) (seen ++ [c]) := by
  rcases h with ⟨rfl, rfl⟩ | ⟨i, hmem, hbi, hni, hbest, hmin⟩
  · refine ⟨c, by simp, ?_, ?_, ?_, ?_⟩ <;>
      simp [lookStep, keyLt, keyLt_irrefl]
  · by_cases hlt : keyLt (lookKey A b xk c) acc.best = true
    · refine ⟨c, by simp, ?_, ?_, ?_, ?_⟩
      · simp [lookStep, hlt]
      · simp [lookStep, hlt]
      · simp [lookStep, hlt]
      · intro j hj
        rcases List.mem_append.mp hj with hj | hj
        · rw [hbest] at hlt
          by_contra hcon
          rw [Bool.not_eq_false] at hcon
          have := keyLt_trans hcon hlt
          rw [hmin j hj] at this
          exact Bool.false_ne_true this
        · simp only [List.mem_singleton] at hj
          subst hj
          exact keyLt_irrefl _
    · rw [Bool.not_eq_true] at hlt
      rw [hbest] at hlt
      refine ⟨i, by simp [hmem], ?_, ?_, ?_, ?_⟩
      · simp [lookStep, hbest, hlt, hbi]
      · simp [lookStep, hbest, hlt, hni]
      · simp [lookStep, hbest, hlt]
      · intro j hj
        rcases List.mem_append.mp hj with hj | hj
        · exact hmin j hj
        · simp only [List.mem_singleton] at hj
          subst hj
          exact hlt

theorem lookFold_inv (A : List (List ℚ)) (b xk : List ℚ) :
    ∀ (l : List ℕ) (acc : LookAcc) (seen : List ℕ),
      LookInv A b xk acc seen →
      LookInv A b xk (l.foldl (lookStep A b xk) acc) (seen ++ l) := by
  intro l
  induction l with
  | nil => intro acc seen h; simpa using h
  | cons c l ih =>
    intro acc seen h
    have hstep := lookStep_inv A b xk acc seen c h
    have := ih (lookStep A b xk acc c) (seen ++ [c]) (Or.inr hstep)
    simpa [List.append_assoc] using this

theorem lookSearch_best (A : List (List ℚ)) (b xk : List ℚ) (m : ℕ)
    (hm : 0 < m) : LookBest A b xk (lookSearch A b xk m) (List.range m) := by
  have h := lookFold_inv A b xk (List.range m) ⟨-1, -1, none⟩ []
    (Or.inl ⟨rfl, rfl⟩)
  simp only [List.nil_append] at h
  rcases h with ⟨_, hr⟩ | h
  · have : (List.range m).length = 0 := by rw [hr]; rfl
    simp at this
    omega
  · exact h

/-- Claim C3: whenever `Lookahead._select_row_index` runs a fresh search
(the one-slot cache `self._next_i` is `None` on entry), the cache it
leaves holds the `ik2` of the winning candidate pair, the winning
candidate's score `(two-step residual norm, one-step residual norm)` is
lexicographically minimal over all `m` candidates, and the following call
(whatever `xk` argument and stored iterate it is made with) consumes the
cache: it returns exactly that `ik2`, clears the cache and searches
nothing. -/
theorem lookahead_cache_consumed (A : List (List ℚ)) (b : List ℚ) (m : ℕ)
    (xk xk2 : List ℚ) (s : LookaheadState) (hm : 0 < m)
    (hfresh : s.nextI = none) :
    ∃ i2 : ℕ,
      (lookaheadSelect A b m xk s).2.nextI = some (i2 : ℤ) ∧
      (∀ y : List ℚ,
        lookaheadSelect A b m xk2 ⟨some (i2 : ℤ), y⟩ = ((i2 : ℤ), ⟨none, y⟩)) ∧
      ∃ i : ℕ, i < m ∧ (lookaheadSelect A b m xk s).1 = (i : ℤ) ∧
        i2 = lookI2 A b s.xk i ∧
        ∀ j : ℕ, j < m →
          keyLt (lookKey A b s.xk j) (some (lookKey A b s.xk i)) = false := by
  obtain ⟨i, hmem, hbi, hni, _, hmin⟩ := lookSearch_best A b s.xk m hm
  obtain ⟨nI, sxk⟩ := s
  simp only at hfresh
  subst hfresh
  refine ⟨lookI2 A b sxk i, ?_, ?_, i, ?_, ?_, rfl, ?_⟩
  · simp only [lookaheadSelect, hni]
  · intro y
    rfl
  · simpa using hmem
  · simpa [lookaheadSelect] using hbi
  · intro j hj
    exact hmin j (List.mem_range.mpr hj)

/-- Witness for C3 on `A = [[1,0],[0,1]]`, `b = [1,1]`, stored iterate
`[0,0]`, fresh cache, `m = 2`. -/
theorem lookahead_cache_consumed_witness :
    0 < 2 ∧
    ∃ i2 : ℕ,
      (lookaheadSelect [[1, 0], [0, 1]] [1, 1] 2 [9, 9]
        (LookaheadState.mk none [0, 0])).2.nextI = some (i2 : ℤ) ∧
      (∀ y : List ℚ,
        lookaheadSelect [[1, 0], [0, 1]] [1, 1] 2 [7, 7]
          ⟨some (i2 : ℤ), y⟩ = ((i2 : ℤ), ⟨none, y⟩)) ∧
      ∃ i : ℕ, i < 2 ∧
        (lookaheadSelect [[1, 0], [0, 1]] [1, 1] 2 [9, 9]
          (LookaheadState.mk none [0, 0])).1 = (i : ℤ) ∧
        i2 = lookI2 [[1, 0], [0, 1]] [1, 1]
          (LookaheadState.mk none [0, 0]).xk i ∧
        ∀ j : ℕ, j < 2 →
          keyLt (lookKey [[1, 0], [0, 1]] [1, 1]
              (LookaheadState.mk none [0, 0]).xk j)
            (some (lookKey [[1, 0], [0, 1]] [1, 1]
              (LookaheadState.mk none [0, 0]).xk i)) = false :=
  ⟨by norm_num, lookahead_cache_consumed [[1, 0], [0, 1]] [1, 1] 2 [9, 9]
    [7, 7] (LookaheadState.mk none [0, 0]) (by norm_num) rfl⟩

theorem sorted_getD_zero_le (s : List ℚ) (hs : s.Sorted (· ≤ ·)) (x : ℚ)
    (hx : x ∈ s) : s.getD 0 0 ≤ x := by
  induction s with
  | nil => simp at hx
  | cons a t ih =>
    rw [List.sorted_cons] at hs
    rcases List.mem_cons.mp hx with rfl | hx
    · simp
    · simpa using hs.1 x hx

theorem le_sorted_getD_last (s : List ℚ) (hs : s.Sorted (· ≤ ·)) (x : ℚ)
    (hx : x ∈ s) : x ≤ s.getD (s.length - 1) 0 := by
  induction s with
  | nil => simp at hx
  | cons a t ih =>
    rw [List.sorted_cons] at hs
    by_cases htne : t = []
    · subst htne
      obtain rfl := List.mem_singleton.mp hx
      simp
    · have hlen : (a :: t).length - 1 = (t.length - 1) + 1 := by
        have := List.length_pos.mpr htne
        simp only [List.length_cons]
        omega
      rw [hlen, List.getD_cons_succ]
      rcases List.mem_cons.mp hx with rfl | hx
      · have hmem : t.getD (t.length - 1) 0 ∈ t := by
          have hl : t.length - 1 < t.length := by
            have := List.length_pos.mpr htne
            omega
          rw [List.getD_eq_getElem _ _ hl]
          exact List.getElem_mem hl
        exact hs.1 _ hmem
      · exact ih hs.2 hx

theorem getD_last_mem (s : List ℚ) (h : s ≠ []) :
    s.getD (s.length - 1) 0 ∈ s := by
  have hl : s.length - 1 < s.length := by
    have := List.length_pos.mpr h
    omega
  rw [List.getD_eq_getElem _ _ hl]
  exact List.getElem_mem hl

theorem getD_zero_mem (s : List ℚ) (h : s ≠ []) : s.getD 0 0 ∈ s := by
  have hl : 0 < s.length := List.length_pos.mpr h
  rw [List.getD_eq_getElem _ _ hl]
  exact List.getElem_mem hl

/-- `np.quantile(l, 1.0)` is the maximum of a nonempty list. -/
theorem npQuantile_one (l : List ℚ) (h : l ≠ []) :
    npQuantile l 1 ∈ l ∧ ∀ x ∈ l, x ≤ npQuantile l 1 := by
  have hn : 1 ≤ l.length := List.length_pos.mpr h
  have hcast : (1 : ℚ) * ((l.length : ℚ) - 1) = ((l.length - 1 : ℕ) : ℚ) := by
    push_cast [hn]
    ring
  have hsort : (l.insertionSort (· ≤ ·)).Sorted (· ≤ ·) :=
    List.sorted_insertionSort (· ≤ ·) l
  have hperm : List.Perm (l.insertionSort (· ≤ ·)) l :=
    List.perm_insertionSort (· ≤ ·) l
  have hlen : (l.insertionSort (· ≤ ·)).length = l.length := hperm.length_eq
  have hsne : l.insertionSort (· ≤ ·) ≠ [] := by
    intro hc
    rw [hc] at hlen
    exact h (List.length_eq_zero.mp hlen.symm)
  have hq : npQuantile l 1 =
      (l.insertionSort (· ≤ ·)).getD (l.length - 1) 0 := by
    simp only [npQuantile, hcast, Int.floor_natCast, Int.ceil_natCast,
      Int.toNat_natCast]
    ring
  constructor
  · rw [hq, ← hlen]
    exact hperm.mem_iff.mp (getD_last_mem _ hsne)
  · intro x hx
    rw [hq, ← hlen]
    exact le_sorted_getD_last _ hsort x (hperm.mem_iff.mpr hx)

/-- `np.quantile(l, 0.0)` is the minimum of a nonempty list. -/
theorem npQuantile_zero (l : List ℚ) (h : l ≠ []) :
    npQuantile l 0 ∈ l ∧ ∀ x ∈ l, npQuantile l 0 ≤ x := by
  have hsort : (l.insertionSort (· ≤ ·)).Sorted (· ≤ ·) :=
    List.sorted_insertionSort (· ≤ ·) l
  have hperm : List.Perm (l.insertionSort (· ≤ ·)) l :=
    List.perm_insertionSort (· ≤ ·) l
  have hlen : (l.insertionSort (· ≤ ·)).length = l.length := hperm.length_eq
  have hsne : l.insertionSort (· ≤ ·) ≠ [] := by
    intro hc
    rw [hc] at hlen
    exact h (List.length_eq_zero.mp hlen.symm)
  have hq : npQuantile l 0 = (l.insertionSort (· ≤ ·)).getD 0 0 := by
    simp only [npQuantile]
    norm_num
  constructor
  · rw [hq]
    exact hperm.mem_iff.mp (getD_zero_mem _ hsne)
  · intro x hx
    rw [hq]
    exact sorted_getD_zero_le _ hsort x (hperm.mem_iff.mpr hx)

/-- The `ik`-th threshold distance is exactly `Quantile._distance(xk, ik)`. -/
theorem quantileThresholdDistances_getD (A : List (List ℚ)) (b xk : List ℚ)
    (ik : ℕ) (h : ik < (quantileThresholdDistances A b xk).length) :
    (quantileThresholdDistances A b xk).getD ik 0 =
      quantileDistance A b xk ik := by
  have hres : ik < (residualVec A b xk).length := by
    simpa [quantileThresholdDistances] using h
  have hb : ik < b.length := by
    have h2 := hres
    simp only [residualVec, List.length_zipWith, lt_min_iff] at h2
    exact h2.1
  have hm : ik < (matVec A xk).length := by
    have h2 := hres
    simp only [residualVec, List.length_zipWith, lt_min_iff] at h2
    exact h2.2
  have hA : ik < A.length := by simpa [matVec] using hm
  rw [quantileThresholdDistances, map_abs_getD _ _ hres, quantileDistance]
  congr 1
  rw [List.getD_eq_getElem _ _ hres, List.getD_eq_getElem b 0 hb,
    List.getD_eq_getElem A [] hA]
  simp only [residualVec, List.getElem_zipWith, matVec, List.getElem_map]

/-- Claim C4: with `quantile=1.0` the rejection test never fires: every
proposed row index is accepted (returned unchanged, never the skip
sentinel `-1`), so acceptance behavior coincides with the wrapped
`Random` strategy alone. -/
theorem quantile_one_accepts_all (A : List (List ℚ)) (b xk : List ℚ) (ik : ℕ)
    (hik : ik < (quantileThresholdDistances A b xk).length) :
    quantileSelect A b xk 1 ik = (ik : ℤ) ∧
    quantileSelect A b xk 1 ik ≠ -1 := by
  have hne : quantileThresholdDistances A b xk ≠ [] := by
    intro hc
    rw [hc] at hik
    simp at hik
  obtain ⟨hmem, hmax⟩ := npQuantile_one (quantileThresholdDistances A b xk) hne
  have hd : quantileDistance A b xk ik ≤
      npQuantile (quantileThresholdDistances A b xk) 1 := by
    rw [← quantileThresholdDistances_getD A b xk ik hik]
    refine hmax _ ?_
    rw [List.getD_eq_getElem _ _ hik]
    exact List.getElem_mem hik
  have haccept : quantileSelect A b xk 1 ik = (ik : ℤ) := by
    simp only [quantileSelect, quantileThreshold]
    rcases lt_or_eq_of_le hd with hlt | heq
    · rw [if_pos (Or.inl hlt)]
    · have hclose : npIsclose (quantileDistance A b xk ik)
          (npQuantile (quantileThresholdDistances A b xk) 1) = true := by
        rw [npIsclose, heq]
        simp only [sub_self, abs_zero, decide_eq_true_eq]
        positivity
      rw [if_pos (Or.inr hclose)]
  refine ⟨haccept, ?_⟩
  rw [haccept]
  omega

/-- Witness for C4 on `A = [[1],[1]]`, `b = [1,2]`, `xk = [0]`, proposal
`ik = 0`. -/
theorem quantile_one_accepts_all_witness :
    0 < (quantileThresholdDistances [[1], [1]] [1, 2] [0]).length ∧
    (quantileSelect [[1], [1]] [1, 2] [0] 1 0 = ((0 : ℕ) : ℤ) ∧
      quantileSelect [[1], [1]] [1, 2] [0] 1 0 ≠ -1) :=
  ⟨by decide, quantile_one_accepts_all [[1], [1]] [1, 2] [0] 0 (by decide)⟩

/-- Counterexample to C5 as stated: with `quantile=0.0` on the system
`A = [[1],[1]]`, `b = [0, 1/10^9]`, iterate `[0]`, the proposed row `1`
has distance `1/10^9`, strictly above the minimum residual distance `0`,
yet `np.isclose(1e-9, 0)` holds (`atol = 1e-8`), so the row is accepted
rather than rejected. -/
theorem quantile_zero_counterexample :
    quantileThreshold [[1], [1]] [0, 1 / 1000000000] [0] 0 = 0 ∧
    quantileDistance [[1], [1]] [0, 1 / 1000000000] [0] 1 >
      quantileThreshold [[1], [1]] [0, 1 / 1000000000] [0] 0 ∧
    quantileSelect [[1], [1]] [0, 1 / 1000000000] [0] 0 1 = 1 := by
  decide

/-- Claim C5 amended: with `quantile=0.0` the threshold is the minimum row
distance; a proposed row is rejected (skip sentinel `-1`) precisely when
its distance exceeds that minimum by more than the `np.isclose` tolerance
`atol + rtol * |min|` (`atol = 1e-8`, `rtol = 1e-5`); rows within the
tolerance are accepted even when strictly above the minimum, and every
call returns either the proposal or the sentinel. -/
theorem quantile_zero_rejects_beyond_tolerance (A : List (List ℚ))
    (b xk : List ℚ) (ik : ℕ)
    (hik : ik < (quantileThresholdDistances A b xk).length) :
    (∀ j : ℕ, j < (quantileThresholdDistances A b xk).length →
      quantileThreshold A b xk 0 ≤
        (quantileThresholdDistances A b xk).getD j 0) ∧
    quantileThreshold A b xk 0 ∈ quantileThresholdDistances A b xk ∧
    (quantileSelect A b xk 0 ik = -1 ↔
      quantileThreshold A b xk 0 + 1 / 100000000 +
        (1 / 100000) * |quantileThreshold A b xk 0| <
        quantileDistance A b xk ik) ∧
    (quantileSelect A b xk 0 ik = -1 ∨
      quantileSelect A b xk 0 ik = (ik : ℤ)) := by
  have hne : quantileThresholdDistances A b xk ≠ [] := by
    intro hc
    rw [hc] at hik
    simp at hik
  obtain ⟨hmem, hmin⟩ := npQuantile_zero (quantileThresholdDistances A b xk) hne
  have hdmem : quantileDistance A b xk ik ∈ quantileThresholdDistances A b xk := by
    rw [← quantileThresholdDistances_getD A b xk ik hik,
      List.getD_eq_getElem _ _ hik]
    exact List.getElem_mem hik
  have htd : npQuantile (quantileThresholdDistances A b xk) 0 ≤
      quantileDistance A b xk ik := hmin _ hdmem
  have habs : |quantileDistance A b xk ik -
      npQuantile (quantileThresholdDistances A b xk) 0| =
      quantileDistance A b xk ik -
        npQuantile (quantileThresholdDistances A b xk) 0 :=
    abs_of_nonneg (sub_nonneg.mpr htd)
  have hcond : (quantileDistance A b xk ik <
      npQuantile (quantileThresholdDistances A b xk) 0 ∨
      npIsclose (quantileDistance A b xk ik)
        (npQuantile (quantileThresholdDistances A b xk) 0) = true) ↔
      quantileDistance A b xk ik ≤
        npQuantile (quantileThresholdDistances A b xk) 0 + 1 / 100000000 +
          (1 / 100000) * |npQuantile (quantileThresholdDistances A b xk) 0| := by
    simp only [npIsclose, decide_eq_true_eq, habs]
    constructor
    · rintro (h | h)
      · have := abs_nonneg (npQuantile (quantileThresholdDistances A b xk) 0)
        linarith
      · linarith
    · intro h
      exact Or.inr (by linarith)
  refine ⟨?_, hmem, ?_, ?_⟩
  · intro j hj
    refine hmin _ ?_
    rw [List.getD_eq_getElem _ _ hj]
    exact List.getElem_mem hj
  · by_cases hc : quantileDistance A b xk ik <
        npQuantile (quantileThresholdDistances A b xk) 0 ∨
        npIsclose (quantileDistance A b xk ik)
          (npQuantile (quantileThresholdDistances A b xk) 0) = true
    · have hsel : quantileSelect A b xk 0 ik = (ik : ℤ) := by
        simp only [quantileSelect, quantileThreshold]
        rw [if_pos hc]
      constructor
      · intro h
        rw [hsel] at h
        omega
      · intro h
        rw [hcond] at hc
        exact absurd hc (by simp only [quantileThreshold] at h; linarith)
    · have hsel : quantileSelect A b xk 0 ik = -1 := by
        simp only [quantileSelect, quantileThreshold]
        rw [if_neg hc]
      constructor
      · intro _
        rw [hcond] at hc
        simp only [quantileThreshold]
        linarith [lt_of_not_le hc]
      · intro _
        exact hsel
  · by_cases hc : quantileDistance A b xk ik <
        npQuantile (quantileThresholdDistances A b xk) 0 ∨
        npIsclose (quantileDistance A b xk ik)
          (npQuantile (quantileThresholdDistances A b xk) 0) = true
    · refine Or.inr ?_
      simp only [quantileSelect, quantileThreshold]
      rw [if_pos hc]
    · refine Or.inl ?_
      simp only [quantileSelect, quantileThreshold]
      rw [if_neg hc]

/-- Witness for the amended C5 on `A = [[1],[1]]`, `b = [0,1]`,
`xk = [0]`, proposal `ik = 1` (distance `1`, far beyond the tolerance,
hence rejected). -/
theorem quantile_zero_rejects_beyond_tolerance_witness :
    1 < (quantileThresholdDistances [[1], [1]] [0, 1] [0]).length ∧
    ((∀ j : ℕ, j < (quantileThresholdDistances [[1], [1]] [0, 1] [0]).length →
      quantileThreshold [[1], [1]] [0, 1] [0] 0 ≤
        (quantileThresholdDistances [[1], [1]] [0, 1] [0]).getD j 0) ∧
    quantileThreshold [[1], [1]] [0, 1] [0] 0 ∈
      quantileThresholdDistances [[1], [1]] [0, 1] [0] ∧
    (quantileSelect [[1], [1]] [0, 1] [0] 0 1 = -1 ↔
      quantileThreshold [[1], [1]] [0, 1] [0] 0 + 1 / 100000000 +
        (1 / 100000) * |quantileThreshold [[1], [1]] [0, 1] [0] 0| <
        quantileDistance [[1], [1]] [0, 1] [0] 1) ∧
    (quantileSelect [[1], [1]] [0, 1] [0] 0 1 = -1 ∨
      quantileSelect [[1], [1]] [0, 1] [0] 0 1 = ((1 : ℕ) : ℤ))) :=
  ⟨by decide, quantile_zero_rejects_beyond_tolerance [[1], [1]] [0, 1] [0] 1
    (by decide)⟩

theorem dequeAppend_drop (w : ℕ) (s : List ℚ) (x : ℚ) :
    dequeAppend w (s.drop (s.length - w)) x =
      (s ++ [x]).drop (s.length + 1 - w) := by
  rcases Nat.lt_or_ge s.length w with hlt | hge
  · have h0 : s.length - w = 0 := by omega
    rw [h0, List.drop_zero]
    rfl
  · rcases Nat.eq_zero_or_pos w with rfl | hw
    · have h1 : s.length - 0 = s.length := by omega
      rw [h1, List.drop_length]
      have h2 : dequeAppend 0 [] x = [] := rfl
      rw [h2]
      symm
      refine List.drop_eq_nil_of_le ?_
      simp
    · have hdl : (s.drop (s.length - w)).length = w := by
        rw [List.length_drop]
        omega
      rw [dequeAppend, hdl]
      have h1 : w + 1 - w = 1 := by omega
      rw [h1]
      rw [List.drop_append_of_le_length (by omega : 1 ≤ (s.drop (s.length - w)).length)]
      rw [List.drop_drop]
      rw [List.drop_append_of_le_length (by omega : s.length + 1 - w ≤ s.length)]
      congr 2
      omega

theorem windowFold (w : ℕ) (ds : List ℚ) :
    ds.foldl (dequeAppend w) [] = ds.drop (ds.length - w) := by
  induction ds using List.reverseRecOn with
  | nil => simp
  | append_singleton ds x ih =>
    rw [List.foldl_append, List.foldl_cons, List.foldl_nil, ih,
      dequeAppend_drop]
    congr 1
    simp

theorem windowedRun_window (w : ℕ) (A : List (List ℚ)) (b : List ℚ)
    (q : ℚ) (calls : List (List ℚ × ℕ)) :
    (windowedRun w A b q calls).window =
      (computedDistances A b calls).foldl (dequeAppend w) [] := by
  suffices h : ∀ (cs : List (List ℚ × ℕ)) (s : WindowedState),
      (cs.foldl (fun s c => (windowedSelect w A b q c.1 c.2 s).2) s).window =
        (cs.map (fun c => quantileDistance A b c.1 c.2)).foldl
          (dequeAppend w) s.window by
    exact h calls ⟨[]⟩
  intro cs
  induction cs with
  | nil => intro s; rfl
  | cons c cs ih =>
    intro s
    rw [List.foldl_cons, List.map_cons, List.foldl_cons]
    exact ih ⟨dequeAppend w s.window (quantileDistance A b c.1 c.2)⟩

/-- Claim C6: the distance distribution feeding `WindowedQuantile`'s
threshold is a fixed-capacity FIFO of the scalar distances computed by
step 2: after any sequence of calls the window holds exactly the most
recent `min(number of calls, window_size)` distances in computation
order; in particular with at most `window_size` calls it holds all
distances seen so far, and after `window_size + k` calls the `k` oldest
distances have been evicted and exactly `window_size` remain. -/
theorem windowedQuantile_fifo (w : ℕ) (A : List (List ℚ)) (b : List ℚ)
    (q : ℚ) (calls : List (List ℚ × ℕ)) :
    (windowedRun w A b q calls).window =
      (computedDistances A b calls).drop (calls.length - w) ∧
    (calls.length ≤ w →
      (windowedRun w A b q calls).window = computedDistances A b calls) ∧
    (∀ k : ℕ, calls.length = w + k →
      (windowedRun w A b q calls).window =
        (computedDistances A b calls).drop k ∧
      (windowedRun w A b q calls).window.length = w) := by
  have hlen : (computedDistances A b calls).length = calls.length := by
    simp [computedDistances]
  have hmain : (windowedRun w A b q calls).window =
      (computedDistances A b calls).drop (calls.length - w) := by
    rw [windowedRun_window, windowFold, hlen]
  refine ⟨hmain, ?_, ?_⟩
  · intro hle
    rw [hmain]
    have h0 : calls.length - w = 0 := by omega
    rw [h0, List.drop_zero]
  · intro k hk
    have hdrop : calls.length - w = k := by omega
    constructor
    · rw [hmain, hdrop]
    · rw [hmain, hdrop, List.length_drop, hlen]
      omega

/-- Claim C8: the sampling distribution computed once at construction
satisfies `p[i] = row_norm[i]² / Σ row_norm[j]²` for every row, and on a
system whose rows have norms `[1, 2]` (here `A = [[1],[2]]`) it is
exactly `[1/5, 4/5]`. -/
theorem svrandom_p_squared_norms (A : List (List ℚ)) (i : ℕ)
    (hi : i < A.length) :
    (svrandomP A).getD i 0 =
      sqNorm (A.getD i []) / (squaredRowNorms A).sum ∧
    svrandomP [[1], [2]] = [1 / 5, 4 / 5] := by
  constructor
  · have hlen : i < (svrandomP A).length := by
      simpa [svrandomP, squaredRowNorms] using hi
    rw [List.getD_eq_getElem _ _ hlen]
    simp only [svrandomP, squaredRowNorms, List.getElem_map]
    rw [List.getD_eq_getElem A [] hi]
  · decide

/-- Witness for C8 at `A = [[1],[2]]`, `i = 0`. -/
theorem svrandom_p_squared_norms_witness :
    0 < ([[1], [2]] : List (List ℚ)).length ∧
    ((svrandomP [[1], [2]]).getD 0 0 =
      sqNorm (([[1], [2]] : List (List ℚ)).getD 0 []) /
        (squaredRowNorms [[1], [2]]).sum ∧
    svrandomP [[1], [2]] = [1 / 5, 4 / 5]) :=
  ⟨by decide, svrandom_p_squared_norms [[1], [2]] 0 (by decide)⟩

/-- Claim C9 concerns code the source leaves unguarded: constructing
`SVRandom` on a system whose rows are all zero divides by the zero sum of
squared norms with no guard and no error.  In numpy the entries become
`0/0` (NaN), silently; in this exact-rational model `0/0 = 0`.  Either
way the result is neither a construction-time failure nor a uniform
fallback: `p` comes out `[0, 0]`, summing to `0` instead of `1`. -/
theorem svrandom_all_zero_rows_unguarded :
    svrandomP [[0], [0]] = [0, 0] ∧
    (svrandomP [[0], [0]]).sum = 0 ∧
    svrandomP [[0], [0]] ≠ [1 / 2, 1 / 2] := by
  decide

theorem mem_union1d (a c : List ℕ) (x : ℕ) :
    x ∈ union1d a c ↔ x ∈ a ∨ x ∈ c := by
  rw [union1d,
    (List.perm_insertionSort (· ≤ ·) ((a ++ c).dedup)).mem_iff]
  simp [List.mem_dedup]

theorem mem_updateSelectable (G : List (List ℚ)) (sel : List ℕ) (ik x : ℕ) :
    x ∈ updateSelectable G sel ik ↔
      (x ∈ sel ∨ x ∈ newlySelectable G ik) ∧ x ≠ ik := by
  rw [updateSelectable, setdiff1d, List.mem_filter]
  simp [mem_union1d]

/-- Claim C7: after each `RandomOrthoGraph` selection of `ik`, the
selectable set equals, as a set, the union of the previous selectable set
with `ik`'s neighbor set in the orthogonality graph minus `{ik}`; `ik`
itself is never in the updated set; the update has set semantics
(insensitive to element order and duplicates of the stored selectable
list); and `ik` stays absent under later updates until it is re-added as
a neighbor of a later selection. -/
theorem randomOrthoGraph_update_selectable (G : List (List ℚ))
    (sel sel2 : List ℕ) (ik jk : ℕ) :
    (updateSelectable G sel ik).toFinset =
      (sel.toFinset ∪ (newlySelectable G ik).toFinset) \ {ik} ∧
    ik ∉ updateSelectable G sel ik ∧
    (sel.toFinset = sel2.toFinset →
      (updateSelectable G sel ik).toFinset =
        (updateSelectable G sel2 ik).toFinset) ∧
    (ik ∉ sel → ik ∉ newlySelectable G jk →
      ik ∉ updateSelectable G sel jk) := by
  have hext : ∀ t : List ℕ, (updateSelectable G t ik).toFinset =
      (t.toFinset ∪ (newlySelectable G ik).toFinset) \ {ik} := by
    intro t
    ext x
    simp [mem_updateSelectable]
  refine ⟨hext sel, ?_, ?_, ?_⟩
  · rw [mem_updateSelectable]
    simp
  · intro h
    rw [hext sel, hext sel2, h]
  · intro h1 h2
    rw [mem_updateSelectable]
    push_neg
    intro hc
    exact absurd hc (by tauto)

/-- Claim C10: `MaxDistance._select_row_index` and
`Lookahead._select_row_index` do not depend on the `xk` argument passed to
them: with identical solver state (same `A`, `b`, stored iterate
`self._xk` and cache), any two argument values produce identical results,
because both bodies read the stored iterate `self._xk` rather than the
parameter. -/
theorem select_row_index_ignores_xk (A : List (List ℚ)) (b x1 x2 : List ℚ)
    (m : ℕ) (s : BaseState) (ls : LookaheadState) :
    maxDistanceSelect A b x1 s = maxDistanceSelect A b x2 s ∧
    lookaheadSelect A b m x1 ls = lookaheadSelect A b m x2 ls :=
  ⟨rfl, rfl⟩

end Kaczmarz

